import Mathlib

/-!
Verification of the ledger core of `src/index.ts` (a minimal append-only
blockchain: transactions, hash-linked blocks, a chain with signature-gated
append, a proof-of-work search, and wallets).

The cryptographic primitives used by the program (`crypto.createHash("SHA256")`,
`crypto.createHash("MD5")`, `crypto.createVerify`, `crypto.createSign`) are
external collaborators; they are modelled as an abstract `Crypto` environment
of string functions.  The two nondeterministic inputs of the program —
`Math.round(Math.random() * 999999999)` (the block nonce) and `Date.now()`
(the block timestamp) — are modelled as explicit parameters supplied at each
block creation.
-/

/-- The external cryptographic capabilities of the program.
`sha256` models `crypto.createHash("SHA256") … digest("hex")`,
`md5` models `crypto.createHash("MD5") … digest("hex")`,
`verify payload key sig` models
`crypto.createVerify("SHA256").update(payload).verify(key, sig)`, and
`sign payload priv` models
`crypto.createSign("SHA256").update(payload).sign(priv)`. -/
structure Crypto where
  sha256 : String → String
  md5 : String → String
  verify : String → String → String → Bool
  sign : String → String → String

/-- Model of `class Transaction { constructor(public amount, public payer, public payee) }`.
Amounts are JS numbers; the program never validates them, so they are
modelled as integers (zero and negative values included). -/
structure Transaction where
  amount : Int
  payer : String
  payee : String
deriving DecidableEq, Repr

/-- Model of `Transaction.toString()`, i.e. `JSON.stringify(this)`: the canonical
serialization of the three fields in declaration order. -/
def Transaction.toString (t : Transaction) : String :=
  "\x7b\"amount\":" ++ ToString.toString t.amount ++
    ",\"payer\":\"" ++ t.payer ++ "\",\"payee\":\"" ++ t.payee ++ "\"\x7d"

/-- Model of `class Block { public nonce = Math.round(Math.random()*999999999);
constructor(public prevHash, public transaction, public ts = Date.now()) }`.
The random nonce and the timestamp are explicit fields, supplied by the
caller at construction. -/
structure Block where
  prevHash : String
  transaction : Transaction
  ts : Nat
  nonce : Nat
deriving DecidableEq, Repr

/-- Serialization `JSON.stringify(this)` of a `Block`: the deterministic serialization of
the four fields in a fixed order. -/
def Block.stringify (b : Block) : String :=
  "\x7b\"prevHash\":\"" ++ b.prevHash ++
    "\",\"transaction\":" ++ Transaction.toString b.transaction ++
    ",\"ts\":" ++ ToString.toString b.ts ++
    ",\"nonce\":" ++ ToString.toString b.nonce ++ "\x7d"

/-- Getter `get hash()`: SHA-256 hex digest of `JSON.stringify(this)`, recomputed on
each call (never cached). -/
def Block.hash (env : Crypto) (b : Block) : String :=
  env.sha256 (Block.stringify b)

/-- Model of `class Chain { chain: Block[] }`. -/
structure Chain where
  chain : List Block
deriving Repr

/-- Constructor `constructor() { this.chain = [new Block("", new Transaction(500, "initial",
"Daniel"))] }` — the genesis block, with the nondeterministic nonce and
timestamp of that block supplied as parameters `gn`, `gts`. -/
def Chain.init (gn gts : Nat) : Chain :=
  ⟨[⟨"", ⟨500, "initial", "Daniel"⟩, gts, gn⟩]⟩

/-- Getter `get lastBlock() { return this.chain[this.chain.length - 1] }`.
In JavaScript the index access yields `undefined` on an empty array, modelled
by `Option`. -/
def Chain.lastBlock (c : Chain) : Option Block :=
  c.chain[c.chain.length - 1]?

/-- One iteration test of the `mine` loop: the MD5 hex digest of
`(nonce + solution).toString()` starts with `"0000"`
(`attempt.substr(0, 4) === "0000"`). -/
def mineHit (md5 : String → String) (nonce solution : Nat) : Bool :=
  (md5 (ToString.toString (nonce + solution))).take 4 == "0000"

/-- The `while (true)` search loop of `Chain.mine`, with explicit fuel:
starting from the given `solution`, increment until `mineHit`; `none` models
fuel exhaustion (the actual loop is unbounded). -/
def mineLoop (md5 : String → String) (nonce : Nat) : Nat → Nat → Option Nat
  | 0, _ => none
  | fuel + 1, solution =>
      if mineHit md5 nonce solution then some solution
      else mineLoop md5 nonce fuel (solution + 1)

/-- Method `mine(nonce)`: a method on `Chain` whose body reads and writes no field of
`this`; in the state-passing embedding it returns the state together with the
result of the search loop started at `solution = 1`. -/
def Chain.mine (env : Crypto) (fuel : Nat) (c : Chain) (nonce : Nat) :
    Chain × Option Nat :=
  (c, mineLoop env.md5 nonce fuel 1)

/-- Method `addBlock(transaction, senderPublicKey, signature)`: verify the signature
over `transaction.toString()` against `senderPublicKey`; if valid, push
`new Block(this.lastBlock.hash, transaction)` (with its fresh nonce `newNonce`
and timestamp `newTs`); otherwise do nothing.  `none` models the TypeError of
`this.lastBlock.hash` on an empty chain (never reachable). -/
def Chain.addBlock (env : Crypto) (newNonce newTs : Nat) (c : Chain)
    (transaction : Transaction) (senderPublicKey : String)
    (signature : String) : Option Chain :=
  let isValid := env.verify (Transaction.toString transaction)
    senderPublicKey signature
  if isValid then
    match c.lastBlock with
    | some last =>
        some ⟨c.chain ++ [⟨Block.hash env last, transaction, newTs, newNonce⟩]⟩
    | none => none
  else
    some c

/-- Model of `class Wallet { publicKey; privateKey }`. -/
structure Wallet where
  publicKey : String
  privateKey : String

/-- Method `sendMoney(amount, payeePublicKey)`: build
`new Transaction(amount, this.publicKey, payeePublicKey)`, sign its
serialization with `this.privateKey`, and call
`Chain.instance.addBlock(transaction, this.publicKey, signature)`. -/
def Wallet.sendMoney (env : Crypto) (newNonce newTs : Nat) (w : Wallet)
    (amount : Int) (payeePublicKey : String) (c : Chain) : Option Chain :=
  let transaction : Transaction := ⟨amount, w.publicKey, payeePublicKey⟩
  let signature := env.sign (Transaction.toString transaction) w.privateKey
  Chain.addBlock env newNonce newTs c transaction w.publicKey signature

/-- The states of the `Chain` reachable from construction by any sequence of
`addBlock` and `mine` calls, for a fixed environment and fixed genesis
nonce/timestamp; the fresh nonce and timestamp of each appended block are
arbitrary. -/
inductive Reachable (env : Crypto) (gn gts : Nat) : Chain → Prop
  | init : Reachable env gn gts (Chain.init gn gts)
  | addBlock {c c' : Chain} (t : Transaction) (key sig : String)
      (n ts : Nat) (hr : Reachable env gn gts c)
      (hs : Chain.addBlock env n ts c t key sig = some c') :
      Reachable env gn gts c'
  | mine {c c' : Chain} (fuel seed : Nat) (r : Option Nat)
      (hr : Reachable env gn gts c)
      (hs : Chain.mine env fuel c seed = (c', r)) :
      Reachable env gn gts c'

/-- A concrete environment used to evaluate the development on closed inputs:
`verify payload key sig` accepts exactly the strings that `sign` produces when
the private key equals the public key. -/
def demoCrypto : Crypto where
  sha256 := fun s => "sha:" ++ s
  md5 := fun s => if s == "3" then "0000cafe" else "ffff" ++ s
  verify := fun payload key sig => sig == key ++ "|" ++ payload
  sign := fun payload priv => priv ++ "|" ++ payload

/-- A second concrete environment, differing from `demoCrypto` only in the MD5
primitive; used to exhibit that `addBlock` does not depend on MD5. -/
def demoCryptoAltMd5 : Crypto :=
  { demoCrypto with md5 := fun _ => "ffff" }

/-- The chain-shape invariant: nonempty, genesis at index 0, and every later
block's `prevHash` equal to the recomputed hash of its predecessor. -/
def ChainOK (env : Crypto) (gn gts : Nat) (c : Chain) : Prop :=
  1 ≤ c.chain.length ∧
  c.chain[0]? = some ⟨"", ⟨500, "initial", "Daniel"⟩, gts, gn⟩ ∧
  ∀ i, 0 < i → i < c.chain.length →
    ∃ a b, c.chain[i - 1]? = some a ∧ c.chain[i]? = some b ∧
      b.prevHash = Block.hash env a

lemma lastBlock_eq_getLast (c : Chain) :
    Chain.lastBlock c = c.chain.getLast? := by
  rw [Chain.lastBlock, List.getLast?_eq_getElem?]

lemma lastBlock_isSome_of_ne_nil {c : Chain} (h : c.chain ≠ []) :
    ∃ b, Chain.lastBlock c = some b := by
  have hlen : 0 < c.chain.length := List.length_pos.mpr h
  have hlt : c.chain.length - 1 < c.chain.length := by omega
  exact ⟨c.chain[c.chain.length - 1], List.getElem?_eq_getElem hlt⟩

lemma addBlock_valid (env : Crypto) (n ts : Nat) (c : Chain) (t : Transaction)
    (key sig : String) (last : Block)
    (hv : env.verify (Transaction.toString t) key sig = true)
    (hl : Chain.lastBlock c = some last) :
    Chain.addBlock env n ts c t key sig =
      some ⟨c.chain ++ [⟨Block.hash env last, t, ts, n⟩]⟩ := by
  simp only [Chain.addBlock, hv, if_true, hl]

lemma addBlock_invalid {env : Crypto} {n ts : Nat} {c : Chain} {t : Transaction}
    {key sig : String}
    (hv : env.verify (Transaction.toString t) key sig = false) :
    Chain.addBlock env n ts c t key sig = some c := by
  simp only [Chain.addBlock, hv, Bool.false_eq_true, if_false]

lemma addBlock_cases {env : Crypto} {n ts : Nat} {c c' : Chain}
    {t : Transaction} {key sig : String}
    (hs : Chain.addBlock env n ts c t key sig = some c') :
    c' = c ∨ ∃ last, Chain.lastBlock c = some last ∧
      c' = ⟨c.chain ++ [⟨Block.hash env last, t, ts, n⟩]⟩ := by
  by_cases hv : env.verify (Transaction.toString t) key sig = true
  · cases hl : Chain.lastBlock c with
    | none =>
        exfalso
        simp only [Chain.addBlock, hv, if_true, hl] at hs
        exact Option.noConfusion hs
    | some last =>
        right
        refine ⟨last, rfl, ?_⟩
        rw [addBlock_valid env n ts c t key sig last hv hl] at hs
        exact (Option.some.inj hs).symm
  · left
    rw [addBlock_invalid (by simpa using hv)] at hs
    exact (Option.some.inj hs).symm

lemma chainOK_init (env : Crypto) (gn gts : Nat) :
    ChainOK env gn gts (Chain.init gn gts) := by
  refine ⟨by simp [Chain.init], rfl, ?_⟩
  intro i hi hlen
  simp only [Chain.init, List.length_singleton] at hlen
  omega

lemma chainOK_append {env : Crypto} {gn gts : Nat} {c : Chain}
    (h : ChainOK env gn gts c) {last : Block}
    (hl : Chain.lastBlock c = some last) (t : Transaction) (n ts : Nat) :
    ChainOK env gn gts ⟨c.chain ++ [⟨Block.hash env last, t, ts, n⟩]⟩ := by
  obtain ⟨hlen, hgen, hlink⟩ := h
  refine ⟨?_, ?_, ?_⟩
  · simp only [List.length_append, List.length_singleton]
    omega
  · rw [List.getElem?_append, if_pos (by omega)]
    exact hgen
  · intro i hi hilen
    simp only [List.length_append, List.length_singleton] at hilen
    by_cases hcase : i < c.chain.length
    · obtain ⟨a, b, ha, hb, hpv⟩ := hlink i hi hcase
      refine ⟨a, b, ?_, ?_, hpv⟩
      · rw [List.getElem?_append, if_pos (by omega)]
        exact ha
      · rw [List.getElem?_append, if_pos hcase]
        exact hb
    · have hieq : i = c.chain.length := by omega
      refine ⟨last, ⟨Block.hash env last, t, ts, n⟩, ?_, ?_, rfl⟩
      · rw [List.getElem?_append, if_pos (by omega), hieq]
        exact hl
      · rw [hieq]
        exact List.getElem?_concat_length _ _

lemma mine_fst {env : Crypto} {fuel : Nat} {c c' : Chain} {seed : Nat}
    {r : Option Nat} (hs : Chain.mine env fuel c seed = (c', r)) : c' = c := by
  have := congrArg Prod.fst hs
  simpa [Chain.mine] using this.symm

lemma chainOK_reachable {env : Crypto} {gn gts : Nat} {c : Chain}
    (h : Reachable env gn gts c) : ChainOK env gn gts c := by
  induction h with
  | init => exact chainOK_init env gn gts
  | addBlock t key sig n ts hr hs ih =>
      rcases addBlock_cases hs with h1 | ⟨last, hl, h2⟩
      · rwa [h1]
      · rw [h2]
        exact chainOK_append ih hl t n ts
  | mine fuel seed r hr hs ih =>
      rwa [mine_fst hs]

lemma mineLoop_sound {md5 : String → String} {nonce : Nat} :
    ∀ fuel s sol, mineLoop md5 nonce fuel s = some sol →
      s ≤ sol ∧ mineHit md5 nonce sol = true ∧
        ∀ u, s ≤ u → u < sol → mineHit md5 nonce u = false := by
  intro fuel
  induction fuel with
  | zero => intro s sol hs; exact Option.noConfusion hs
  | succ fuel ih =>
      intro s sol hs
      by_cases hhit : mineHit md5 nonce s = true
      · simp only [mineLoop, hhit, if_true] at hs
        obtain rfl : s = sol := Option.some.inj hs
        exact ⟨le_refl s, hhit, fun u hu1 hu2 => absurd hu1 (by omega)⟩
      · simp only [mineLoop, hhit, if_false] at hs
        obtain ⟨h1, h2, h3⟩ := ih (s + 1) sol hs
        refine ⟨by omega, h2, ?_⟩
        intro u hu1 hu2
        by_cases hus : u = s
        · rw [hus]
          exact Bool.not_eq_true _ ▸ (by simpa using hhit)
        · exact h3 u (by omega) hu2

lemma mineLoop_succ (md5 : String → String) (nonce fuel s : Nat) :
    mineLoop md5 nonce (fuel + 1) s =
      if mineHit md5 nonce s then some s
      else mineLoop md5 nonce fuel (s + 1) := rfl

lemma mineLoop_complete {md5 : String → String} {nonce : Nat} :
    ∀ k s, mineHit md5 nonce (s + k) = true →
      ∃ sol, mineLoop md5 nonce (k + 1) s = some sol := by
  intro k
  induction k with
  | zero =>
      intro s hhit
      refine ⟨s, ?_⟩
      simp only [Nat.add_zero] at hhit
      rw [mineLoop_succ, if_pos hhit]
  | succ k ih =>
      intro s hhit
      by_cases hs : mineHit md5 nonce s = true
      · exact ⟨s, by rw [mineLoop_succ, if_pos hs]⟩
      · obtain ⟨sol, hsol⟩ :=
          ih (s + 1) (by rw [show s + 1 + k = s + (k + 1) by omega]; exact hhit)
        refine ⟨sol, ?_⟩
        rw [mineLoop_succ, if_neg hs]
        exact hsol

/-- C1: for every transaction whose signature verifies against the given
sender public key, `Chain.addBlock` increases the chain length by exactly 1,
the appended block's `prevHash` equals the hash of the block that was the
tail immediately before the call, and the appended block's transaction is the
transaction passed in.  (The chain is nonempty, as in every reachable state.) -/
theorem addBlock_valid_appends (env : Crypto) (n ts : Nat) (c : Chain)
    (t : Transaction) (key sig : String)
    (hv : env.verify (Transaction.toString t) key sig = true)
    (hne : c.chain ≠ []) :
    ∃ c' last b, Chain.addBlock env n ts c t key sig = some c' ∧
      c'.chain.length = c.chain.length + 1 ∧
      Chain.lastBlock c = some last ∧
      c'.chain.getLast? = some b ∧
      b.prevHash = Block.hash env last ∧
      b.transaction = t := by
  obtain ⟨last, hl⟩ := lastBlock_isSome_of_ne_nil hne
  refine ⟨⟨c.chain ++ [⟨Block.hash env last, t, ts, n⟩]⟩, last,
    ⟨Block.hash env last, t, ts, n⟩,
    addBlock_valid env n ts c t key sig last hv hl, ?_, hl,
    List.getLast?_concat _, rfl, rfl⟩
  simp

/-- Closed instance of `addBlock_valid_appends` at a concrete environment,
chain, transaction, key and signature. -/
theorem addBlock_valid_appends_witness :
    ∃ c' last b,
      Chain.addBlock demoCrypto 7 100 (Chain.init 1 2) ⟨50, "K", "B"⟩ "K"
        (demoCrypto.sign (Transaction.toString ⟨50, "K", "B"⟩) "K") = some c' ∧
      c'.chain.length = (Chain.init 1 2).chain.length + 1 ∧
      Chain.lastBlock (Chain.init 1 2) = some last ∧
      c'.chain.getLast? = some b ∧
      b.prevHash = Block.hash demoCrypto last ∧
      b.transaction = ⟨50, "K", "B"⟩ :=
  addBlock_valid_appends demoCrypto 7 100 (Chain.init 1 2) ⟨50, "K", "B"⟩ "K"
    (demoCrypto.sign (Transaction.toString ⟨50, "K", "B"⟩) "K")
    (by decide) (by decide)

/-- C2: for every transaction whose signature fails verification,
`Chain.addBlock` is a no-op: the result is `some` of the unchanged chain
(same length, same blocks), no block is created, and no error (`none`) is
raised to the caller. -/
theorem addBlock_invalid_silent_noop (env : Crypto) (n ts : Nat) (c : Chain)
    (t : Transaction) (key sig : String)
    (hv : env.verify (Transaction.toString t) key sig = false) :
    Chain.addBlock env n ts c t key sig = some c :=
  addBlock_invalid hv

/-- Closed instance of `addBlock_invalid_silent_noop` at a concrete corrupted
signature. -/
theorem addBlock_invalid_silent_noop_witness :
    Chain.addBlock demoCrypto 7 100 (Chain.init 1 2) ⟨50, "K", "B"⟩ "K"
      "corrupted" = some (Chain.init 1 2) :=
  addBlock_invalid_silent_noop demoCrypto 7 100 (Chain.init 1 2) ⟨50, "K", "B"⟩
    "K" "corrupted" (by decide)

/-- C6: `Block.hash` is deterministic and a pure function of the block's
fields: evaluating it twice on the same block yields identical strings, and
any two blocks with identical field values yield identical hashes. -/
theorem block_hash_deterministic (env : Crypto) (b₁ b₂ : Block)
    (h1 : b₁.prevHash = b₂.prevHash) (h2 : b₁.transaction = b₂.transaction)
    (h3 : b₁.ts = b₂.ts) (h4 : b₁.nonce = b₂.nonce) :
    Block.hash env b₁ = Block.hash env b₁ ∧
    Block.hash env b₁ = Block.hash env b₂ := by
  have heq : b₁ = b₂ := by
    cases b₁
    cases b₂
    simp only [Block.mk.injEq]
    exact ⟨h1, h2, h3, h4⟩
  exact ⟨rfl, by rw [heq]⟩

/-- Closed instance of `block_hash_deterministic` at two (identical-field)
concrete blocks. -/
theorem block_hash_deterministic_witness :
    Block.hash demoCrypto ⟨"", ⟨1, "a", "b"⟩, 3, 4⟩ =
      Block.hash demoCrypto ⟨"", ⟨1, "a", "b"⟩, 3, 4⟩ ∧
    Block.hash demoCrypto ⟨"", ⟨1, "a", "b"⟩, 3, 4⟩ =
      Block.hash demoCrypto ⟨"", ⟨1, "a", "b"⟩, 3, 4⟩ :=
  block_hash_deterministic demoCrypto ⟨"", ⟨1, "a", "b"⟩, 3, 4⟩
    ⟨"", ⟨1, "a", "b"⟩, 3, 4⟩ rfl rfl rfl rfl

/-- C7: chain construction produces exactly one block, the genesis block,
with empty `prevHash` and a transaction of amount 500 from payer "initial"
to the fixed payee "Daniel" (for any genesis nonce and timestamp). -/
theorem chain_init_genesis (gn gts : Nat) :
    ∃ g : Block, (Chain.init gn gts).chain = [g] ∧ g.prevHash = "" ∧
      g.transaction.amount = 500 ∧ g.transaction.payer = "initial" ∧
      g.transaction.payee = "Daniel" :=
  ⟨⟨"", ⟨500, "initial", "Daniel"⟩, gts, gn⟩, rfl, rfl, rfl, rfl, rfl⟩

/-- Closed instance of `chain_init_genesis` at concrete genesis
nonce/timestamp. -/
theorem chain_init_genesis_witness :
    ∃ g : Block, (Chain.init 1 2).chain = [g] ∧ g.prevHash = "" ∧
      g.transaction.amount = 500 ∧ g.transaction.payer = "initial" ∧
      g.transaction.payee = "Daniel" :=
  chain_init_genesis 1 2

/-- C3: in every state of the chain reachable from construction by any
sequence of `addBlock` and `mine` calls, the chain length is at least 1, the
block at index 0 is the genesis block, and for every index `i > 0` the block
at `i` has `prevHash` equal to the recomputed hash of the block at `i - 1`. -/
theorem reachable_chain_invariant (env : Crypto) (gn gts : Nat) (c : Chain)
    (h : Reachable env gn gts c) :
    1 ≤ c.chain.length ∧
    c.chain[0]? = some ⟨"", ⟨500, "initial", "Daniel"⟩, gts, gn⟩ ∧
    ∀ i, 0 < i → i < c.chain.length →
      ∃ a b, c.chain[i - 1]? = some a ∧ c.chain[i]? = some b ∧
        b.prevHash = Block.hash env a :=
  chainOK_reachable h

/-- Closed instance of `reachable_chain_invariant` at the initial reachable
state of a concrete environment. -/
theorem reachable_chain_invariant_witness :
    1 ≤ (Chain.init 1 2).chain.length ∧
    (Chain.init 1 2).chain[0]? = some ⟨"", ⟨500, "initial", "Daniel"⟩, 2, 1⟩ ∧
    ∀ i, 0 < i → i < (Chain.init 1 2).chain.length →
      ∃ a b, (Chain.init 1 2).chain[i - 1]? = some a ∧
        (Chain.init 1 2).chain[i]? = some b ∧
        b.prevHash = Block.hash demoCrypto a :=
  reachable_chain_invariant demoCrypto 1 2 (Chain.init 1 2) Reachable.init

/-- C4: for every seed for which a solution exists, the `mine` search returns
(for sufficient fuel, modelling the unbounded `while (true)` loop) the
smallest solution `≥ 1` whose MD5 digest of `(seed + solution).toString()`
begins with `"0000"`: the returned solution satisfies the predicate and no
smaller positive solution does. -/
theorem mine_finds_least_solution (env : Crypto) (c : Chain) (seed : Nat)
    (h : ∃ s, 1 ≤ s ∧ mineHit env.md5 seed s = true) :
    ∃ fuel sol, (Chain.mine env fuel c seed).2 = some sol ∧ 1 ≤ sol ∧
      mineHit env.md5 seed sol = true ∧
      ∀ u, 1 ≤ u → u < sol → mineHit env.md5 seed u = false := by
  obtain ⟨s, hs1, hhit⟩ := h
  obtain ⟨sol, hsol⟩ := mineLoop_complete (s - 1) 1
    (by rw [show 1 + (s - 1) = s by omega]; exact hhit)
  rw [show s - 1 + 1 = s by omega] at hsol
  obtain ⟨h1, h2, h3⟩ := mineLoop_sound s 1 sol hsol
  exact ⟨s, sol, hsol, h1, h2, h3⟩

/-- Closed instance of `mine_finds_least_solution` at a concrete environment
and seed for which a solution exists. -/
theorem mine_finds_least_solution_witness :
    ∃ fuel sol, (Chain.mine demoCrypto fuel (Chain.init 1 2) 1).2 = some sol ∧
      1 ≤ sol ∧ mineHit demoCrypto.md5 1 sol = true ∧
      ∀ u, 1 ≤ u → u < sol → mineHit demoCrypto.md5 1 u = false :=
  mine_finds_least_solution demoCrypto (Chain.init 1 2) 1
    ⟨2, by decide, by decide⟩

/-- C5: the proof-of-work search is not in the append path: `mine` leaves the
chain (its length and every block) unchanged for any seed and fuel, and the
result of `addBlock` is independent of the MD5 primitive that the search
uses — any two environments agreeing on `verify` and `sha256` (but with
arbitrary `md5`) give identical `addBlock` results. -/
theorem mine_not_in_append_path :
    (∀ (env : Crypto) (fuel : Nat) (c : Chain) (seed : Nat),
        (Chain.mine env fuel c seed).1 = c) ∧
    (∀ e₁ e₂ : Crypto, e₁.verify = e₂.verify → e₁.sha256 = e₂.sha256 →
        ∀ (n ts : Nat) (c : Chain) (t : Transaction) (key sig : String),
          Chain.addBlock e₁ n ts c t key sig =
            Chain.addBlock e₂ n ts c t key sig) := by
  constructor
  · intro env fuel c seed
    rfl
  · intro e₁ e₂ hv hsha n ts c t key sig
    simp only [Chain.addBlock, Block.hash, hv, hsha]

/-- Closed instance of `mine_not_in_append_path`: a concrete `mine` call
leaves a concrete chain unchanged, and a concrete `addBlock` call yields the
same result under two environments differing only in MD5. -/
theorem mine_not_in_append_path_witness :
    (Chain.mine demoCrypto 3 (Chain.init 1 2) 5).1 = Chain.init 1 2 ∧
    Chain.addBlock demoCrypto 7 100 (Chain.init 1 2) ⟨50, "K", "B"⟩ "K"
        "sig0" =
      Chain.addBlock demoCryptoAltMd5 7 100 (Chain.init 1 2) ⟨50, "K", "B"⟩
        "K" "sig0" :=
  ⟨mine_not_in_append_path.1 demoCrypto 3 (Chain.init 1 2) 5,
   mine_not_in_append_path.2 demoCrypto demoCryptoAltMd5 rfl rfl 7 100
     (Chain.init 1 2) ⟨50, "K", "B"⟩ "K" "sig0"⟩

/-- C8: `sendMoney` builds the transaction `(amount, w.publicKey, payee)`,
signs its serialization with the wallet's private key, and submits it via
`addBlock` with the wallet's public key; when that self-produced signature
verifies, the chain length grows by 1 and the new tail's transaction carries
the given amount, the wallet's public key as payer, and the given payee. -/
theorem sendMoney_builds_signs_appends (env : Crypto) (n ts : Nat)
    (w : Wallet) (amount : Int) (payee : String) (c : Chain)
    (hsig : env.verify (Transaction.toString ⟨amount, w.publicKey, payee⟩)
        w.publicKey
        (env.sign (Transaction.toString ⟨amount, w.publicKey, payee⟩)
          w.privateKey) = true)
    (hne : c.chain ≠ []) :
    Wallet.sendMoney env n ts w amount payee c =
      Chain.addBlock env n ts c ⟨amount, w.publicKey, payee⟩ w.publicKey
        (env.sign (Transaction.toString ⟨amount, w.publicKey, payee⟩)
          w.privateKey) ∧
    ∃ c' b, Wallet.sendMoney env n ts w amount payee c = some c' ∧
      c'.chain.length = c.chain.length + 1 ∧
      c'.chain.getLast? = some b ∧
      b.transaction = ⟨amount, w.publicKey, payee⟩ := by
  obtain ⟨last, hl⟩ := lastBlock_isSome_of_ne_nil hne
  have hadd := addBlock_valid env n ts c ⟨amount, w.publicKey, payee⟩
    w.publicKey
    (env.sign (Transaction.toString ⟨amount, w.publicKey, payee⟩)
      w.privateKey) last hsig hl
  have hsm : Wallet.sendMoney env n ts w amount payee c =
      some ⟨c.chain ++
        [⟨Block.hash env last, ⟨amount, w.publicKey, payee⟩, ts, n⟩]⟩ := hadd
  exact ⟨rfl, ⟨c.chain ++
      [⟨Block.hash env last, ⟨amount, w.publicKey, payee⟩, ts, n⟩]⟩,
    ⟨Block.hash env last, ⟨amount, w.publicKey, payee⟩, ts, n⟩,
    hsm, by simp, List.getLast?_concat _, rfl⟩

/-- Closed instance of `sendMoney_builds_signs_appends` at a concrete wallet
whose self-produced signature verifies under `demoCrypto`. -/
theorem sendMoney_builds_signs_appends_witness :
    Wallet.sendMoney demoCrypto 7 100 ⟨"K", "K"⟩ 50 "B" (Chain.init 1 2) =
      Chain.addBlock demoCrypto 7 100 (Chain.init 1 2) ⟨50, "K", "B"⟩ "K"
        (demoCrypto.sign (Transaction.toString ⟨50, "K", "B"⟩) "K") ∧
    ∃ c' b, Wallet.sendMoney demoCrypto 7 100 ⟨"K", "K"⟩ 50 "B"
        (Chain.init 1 2) = some c' ∧
      c'.chain.length = (Chain.init 1 2).chain.length + 1 ∧
      c'.chain.getLast? = some b ∧
      b.transaction = ⟨50, "K", "B"⟩ :=
  sendMoney_builds_signs_appends demoCrypto 7 100 ⟨"K", "K"⟩ 50 "B"
    (Chain.init 1 2) (by decide) (by decide)

/-- C9: on every reachable chain state, `lastBlock` returns the last block:
the chain length is at least 1, the index access is in bounds, and the result
is `some` of the list's last element (the error branch never occurs). -/
theorem lastBlock_never_fails (env : Crypto) (gn gts : Nat) (c : Chain)
    (h : Reachable env gn gts c) :
    1 ≤ c.chain.length ∧
    ∃ b, Chain.lastBlock c = some b ∧ c.chain.getLast? = some b := by
  obtain ⟨hlen, -, -⟩ := chainOK_reachable h
  have hne : c.chain ≠ [] := by
    intro hnil
    rw [hnil] at hlen
    simp at hlen
  obtain ⟨b, hb⟩ := lastBlock_isSome_of_ne_nil hne
  refine ⟨hlen, b, hb, ?_⟩
  rw [← lastBlock_eq_getLast]
  exact hb

/-- Closed instance of `lastBlock_never_fails` at the initial reachable
state. -/
theorem lastBlock_never_fails_witness :
    1 ≤ (Chain.init 1 2).chain.length ∧
    ∃ b, Chain.lastBlock (Chain.init 1 2) = some b ∧
      (Chain.init 1 2).chain.getLast? = some b :=
  lastBlock_never_fails demoCrypto 1 2 (Chain.init 1 2) Reachable.init

/-- C10: `addBlock` gates appends on signature validity alone: whenever the
signature verifies under the given key, the block is appended even when the
transaction's payer differs from that key and the amount is nonpositive —
neither field is inspected. -/
theorem addBlock_ignores_payer_and_amount (env : Crypto) (n ts : Nat)
    (c : Chain) (t : Transaction) (key sig : String)
    (hv : env.verify (Transaction.toString t) key sig = true)
    (hne : c.chain ≠ []) (hpayer : t.payer ≠ key) (hamount : t.amount ≤ 0) :
    ∃ c' b, Chain.addBlock env n ts c t key sig = some c' ∧
      c'.chain.length = c.chain.length + 1 ∧
      c'.chain.getLast? = some b ∧ b.transaction = t := by
  obtain ⟨last, hl⟩ := lastBlock_isSome_of_ne_nil hne
  refine ⟨⟨c.chain ++ [⟨Block.hash env last, t, ts, n⟩]⟩,
    ⟨Block.hash env last, t, ts, n⟩,
    addBlock_valid env n ts c t key sig last hv hl, by simp,
    List.getLast?_concat _, rfl⟩

/-- Closed instance of `addBlock_ignores_payer_and_amount`: a correctly
signed transaction with a negative amount and a payer different from the
verifying key is still appended. -/
theorem addBlock_ignores_payer_and_amount_witness :
    ∃ c' b, Chain.addBlock demoCrypto 7 100 (Chain.init 1 2)
        ⟨-1, "Alice", "B"⟩ "K"
        (demoCrypto.sign (Transaction.toString ⟨-1, "Alice", "B"⟩) "K") =
          some c' ∧
      c'.chain.length = (Chain.init 1 2).chain.length + 1 ∧
      c'.chain.getLast? = some b ∧ b.transaction = ⟨-1, "Alice", "B"⟩ :=
  addBlock_ignores_payer_and_amount demoCrypto 7 100 (Chain.init 1 2)
    ⟨-1, "Alice", "B"⟩ "K"
    (demoCrypto.sign (Transaction.toString ⟨-1, "Alice", "B"⟩) "K")
    (by decide) (by decide) (by decide) (by decide)
